import Mathlib

/-!
Verification of the lipsync timing-to-keyframe translator of the
`pitch-tts` Blender add-on.

The embedding covers the two operators that turn a word/phoneme timing
document into frame-domain output:

* `TEXTTOFACE_OT_generate_and_import.execute`
  (`src/blender-plugin/text_to_face_blender/text_to_face_blender/__init__.py`),
  called Mode A below: converts timestamps with `int(t * fps)` (Python
  truncation toward zero), classifies each phoneme by a direct dictionary
  lookup, and writes viseme shape-key keyframes after clearing the span.

* `TEXTTOFACE_OT_generate_audio.execute` and
  `TEXTTOFACE_OT_export_shape_keys.execute`
  (`src/blender-plugin/__init__.py`), called Mode B below: converts
  timestamps with `int(round(t * fps))` (Python round, ties to even),
  splits the audio strip at word boundaries and then evenly at
  `word_start + int(round(i * length / n))` inside each word.

Timestamps and the frame rate are modelled as rationals, frames as
integers; Python `int(...)` and `round(...)` are embedded exactly
(`pyInt`, `pyRound`).  Blender shape-key state is modelled explicitly so
that the clearing/keyframing effects of Mode A can be reasoned about.
-/

namespace TTF

/-- Python `int(q)`: truncation toward zero. -/
def pyInt (q : ℚ) : ℤ :=
  if 0 ≤ q then ⌊q⌋ else ⌈q⌉

/-- Python `round(q)`: round to the nearest integer, ties to even
(Python 3 banker's rounding). -/
def pyRound (q : ℚ) : ℤ :=
  if q - ⌊q⌋ < 1/2 then ⌊q⌋
  else if (1 : ℚ)/2 < q - ⌊q⌋ then ⌊q⌋ + 1
  else if ⌊q⌋ % 2 = 0 then ⌊q⌋ else ⌊q⌋ + 1

/-- A word segment of the timing document (a JSON object with fields
`word`, `start`, `end`, `phonemes`), with all required fields present and
well typed. -/
structure WordSegment where
  word : String
  start : ℚ
  «end» : ℚ
  phonemes : List String
deriving Repr, DecidableEq

/-- Mode A timestamp-to-frame conversion: `int(word["start"] * fps)`
(lines 109-114 of the `text_to_face_blender` file). -/
def frameA (t fps : ℚ) : ℤ := pyInt (t * fps)

/-- Mode B timestamp-to-frame conversion: `int(round(word["start"] * fps))`
(lines 312-313 of `blender-plugin/__init__.py`). -/
def frameB (t fps : ℚ) : ℤ := pyRound (t * fps)

/-- The static phoneme-to-viseme table `ARPABET_TO_VISEME`, identical in
both source files. -/
def ARPABET_TO_VISEME : List (String × String) :=
  [("AA", "viseme_AA"), ("AE", "viseme_AA"), ("AH", "viseme_AA"), ("AO", "viseme_AA"),
   ("AW", "viseme_AA"), ("AY", "viseme_AA"), ("B", "viseme_BM"), ("M", "viseme_BM"),
   ("P", "viseme_BM"),
   ("CH", "viseme_CH"), ("JH", "viseme_CH"), ("D", "viseme_D"), ("DH", "viseme_D"),
   ("T", "viseme_D"),
   ("EH", "viseme_E"), ("EY", "viseme_E"), ("F", "viseme_FV"), ("V", "viseme_FV"),
   ("G", "viseme_GK"), ("K", "viseme_GK"), ("NG", "viseme_GK"),
   ("IH", "viseme_I"), ("IY", "viseme_I"), ("L", "viseme_L"), ("N", "viseme_N"),
   ("OW", "viseme_O"), ("OY", "viseme_O"), ("UH", "viseme_O"), ("UW", "viseme_O"),
   ("R", "viseme_R"), ("S", "viseme_S"), ("Z", "viseme_S"), ("SH", "viseme_SH"),
   ("ZH", "viseme_SH"),
   ("TH", "viseme_TH"), ("W", "viseme_W"), ("Y", "viseme_Y")]

/-- `ARPABET_TO_VISEME.get(ph)`: Python dictionary lookup returning
`None` for absent keys.  This is the classification used by Mode A
(line 117): note that it is applied to the raw symbol, with no stress
stripping. -/
def arpabet_get (ph : String) : Option String :=
  List.lookup ph ARPABET_TO_VISEME

/-- Python `s.replace(c, "")` for a single-character pattern: every
occurrence of the character is removed. -/
def removeChar (c : Char) (s : String) : String :=
  String.mk (s.data.filter (fun a => a ≠ c))

/-- The classification used by `TEXTTOFACE_OT_export_shape_keys.execute`
(line 407 of `blender-plugin/__init__.py`):
`mapping.get(ph.replace('1','').replace('0',''), None)` — every `'1'` and
`'0'` character is removed (anywhere in the symbol) before lookup;
`'2'` is not removed. -/
def classify_export (ph : String) : Option String :=
  arpabet_get (removeChar '0' (removeChar '1' ph))

/-- Character-list helper for Python `str.startswith`. -/
def startsWithChars : List Char → List Char → Bool
  | [], _ => true
  | _ :: _, [] => false
  | p :: ps, c :: cs => p == c && startsWithChars ps cs

/-- Python `s.startswith(pre)`. -/
def py_startswith (s pre : String) : Bool :=
  startsWithChars pre.data s.data

/-- One `insert_viseme` request: shape key name, frame and strength. -/
structure KeyframeEvent where
  viseme : String
  frame : ℤ
  strength : ℚ
deriving Repr, DecidableEq

/-- The inner phoneme loop of Mode A (lines 116-120): for each phoneme,
look it up in the table and, when mapped, request strength 1.0 at the
word's start frame and strength 0.0 at the word's end frame. -/
def phoneme_events : List String → ℤ → ℤ → List KeyframeEvent
  | [], _, _ => []
  | ph :: rest, st, fin =>
      match arpabet_get ph with
      | some v => ⟨v, st, 1⟩ :: ⟨v, fin, 0⟩ :: phoneme_events rest st fin
      | none => phoneme_events rest st fin

/-- The ordered list of `insert_viseme` requests issued by Mode A's word
loop (lines 112-120). -/
def modeA_plan : List WordSegment → ℚ → List KeyframeEvent
  | [], _ => []
  | w :: rest, fps =>
      phoneme_events w.phonemes (frameA w.start fps) (frameA w.«end» fps) ++
        modeA_plan rest fps

/-- Mode B word-level split frames (lines 311-321): a split is requested
at `int(round(word['end'] * fps))` for every word except the last. -/
def modeB_word_split_frames (ws : List WordSegment) (fps : ℚ) : List ℤ :=
  ws.dropLast.map (fun w => frameB w.«end» fps)

/-- Mode B phoneme-level split frames inside one word region of bounds
`[ps, pe)` holding `n` phonemes (line 347):
`[word_start + int(round(i * length / n)) for i in range(1, n)]`. -/
def phoneme_split_frames (ps pe : ℤ) (n : ℕ) : List ℤ :=
  (List.range' 1 (n - 1)).map
    (fun (i : ℕ) => ps + pyRound ((i : ℚ) * ((pe - ps : ℤ) : ℚ) / (n : ℚ)))

/-- Folding the successive splits of one strip: each split frame cuts the
current region, the left piece is named `ph_<phoneme>`, and the final
remainder is named after the last phoneme (lines 348-369). -/
def build_regions : ℤ → List (ℤ × String) → ℤ → String → List (ℤ × ℤ × String)
  | prev, [], pe, lastPh => [(prev, pe, "ph_" ++ lastPh)]
  | prev, (f, ph) :: rest, pe, lastPh =>
      (prev, f, "ph_" ++ ph) :: build_regions f rest pe lastPh

/-- Mode B's phoneme step on one word region (lines 338-369): with fewer
than two phonemes the whole region is renamed and no split happens;
otherwise the region is cut at `phoneme_split_frames`. -/
def modeB_phoneme_regions (ps pe : ℤ) (word : String) (phs : List String) :
    List (ℤ × ℤ × String) :=
  if phs.length < 2 then
    [(ps, pe, "word_" ++ word ++ "_ph_" ++ phs.headD "")]
  else
    build_regions ps ((phoneme_split_frames ps pe phs.length).zip phs.dropLast)
      pe (phs.getLast?.getD "")

/-! ### The raw (unvalidated) document, as consumed by Mode A

`execute` reads the JSON with `json.load`, takes
`data.get("word_segments", [])` and then accesses `word["start"]`,
`word["end"]` and `word.get("phonemes", [])` directly.  A missing
`start`/`end` key raises `KeyError`; nothing else is checked. -/

/-- A raw word segment: each field may be absent. -/
structure RawSegment where
  word : Option String
  start : Option ℚ
  «end» : Option ℚ
  phonemes : Option (List String)
deriving Repr, DecidableEq

/-- Python subscript access `word["k"]`: the value, or a `KeyError`. -/
def getItem {α : Type} : Option α → Except String α
  | some v => Except.ok v
  | none => Except.error "KeyError"

/-- One iteration of Mode A's word loop on a raw segment (lines 112-120):
`start = int(word["start"]*fps)`, `end = int(word["end"]*fps)`,
`phonemes = word.get("phonemes", [])`, then the phoneme loop. -/
def seg_events (s : RawSegment) (fps : ℚ) : Except String (List KeyframeEvent) := do
  let st ← getItem s.start
  let fin ← getItem s.«end»
  Except.ok (phoneme_events (s.phonemes.getD []) (frameA st fps) (frameA fin fps))

/-- Mode A's word loop over the raw document. -/
def segs_events : List RawSegment → ℚ → Except String (List KeyframeEvent)
  | [], _ => Except.ok []
  | s :: rest, fps => do
      let evs ← seg_events s fps
      let more ← segs_events rest fps
      Except.ok (evs ++ more)

/-- Mode A's whole consumption of the raw document (lines 107-120): the
clear-range bounds read `word_segments[0]["start"]` and
`word_segments[-1]["end"]` first (when the list is nonempty), then the
word loop runs.  The result is the list of keyframe requests, or the
uncaught Python exception. -/
def modeA_run (segs : List RawSegment) (fps : ℚ) :
    Except String (List KeyframeEvent) :=
  match segs with
  | [] => Except.ok []
  | s0 :: rest => do
      let _ ← getItem s0.start
      let _ ← getItem ((s0 :: rest).getLast (List.cons_ne_nil s0 rest)).«end»
      segs_events (s0 :: rest) fps

/-! ### Reference (spec-side) definitions and further model pieces -/

/-- The FramePlan the spec describes for Mode A: for each word, for each
of its phonemes that the classifier maps to a category, one activation
event (strength 1.0) at the word's start frame and one deactivation event
(strength 0.0) at the word's end frame; unmapped phonemes contribute
nothing. -/
def modeA_plan_ref (ws : List WordSegment) (fps : ℚ) : List KeyframeEvent :=
  ws.flatMap (fun w =>
    (w.phonemes.filterMap arpabet_get).flatMap (fun v =>
      [⟨v, frameA w.start fps, 1⟩, ⟨v, frameA w.«end» fps, 0⟩]))

/-- The ordered boundary sequence of the phoneme-level partition of one
word region: the region start, the computed split frames in order, and
the region end. -/
def modeB_boundaries (ps pe : ℤ) (n : ℕ) : List ℤ :=
  ps :: (phoneme_split_frames ps pe n ++ [pe])

/-- Modelled from the spec's quantization rule: split points at
`word_start_frame + round(i * span / n)` where `round` rounds to the
nearest integer with ties rounding up (Mathlib `round`), the reference
behavior stated in section 4.3 of the design. -/
def phoneme_split_frames_ref (ps pe : ℤ) (n : ℕ) : List ℤ :=
  (List.range' 1 (n - 1)).map
    (fun (i : ℕ) => ps + round ((i : ℚ) * ((pe - ps : ℤ) : ℚ) / (n : ℚ)))

/-- A chronologically valid timing document: each segment has
`start <= end` and consecutive segments do not overlap. -/
def chronological (ws : List WordSegment) : Prop :=
  (∀ w ∈ ws, w.start ≤ w.«end») ∧
    List.Chain' (fun a b => a.«end» ≤ b.start) ws

/-! ### The Blender shape-key state, for Mode A's write effects

`obj.data.shape_keys` is either absent (`none`) or a list of key blocks;
a key block has a name, a current `value`, and an animation channel in
which `keyframe_insert(data_path="value", frame=f)` records the current
value at frame `f` (the last write at a frame wins). -/

/-- One shape-key block. -/
@[ext] structure ShapeKey where
  name : String
  value : ℚ
  channel : ℤ → Option ℚ

/-- `key.keyframe_insert(data_path="value", frame=f)`: record the current
value at frame `f`. -/
def keyframe_insert (k : ShapeKey) (f : ℤ) : ShapeKey :=
  { k with channel := fun g => if g = f then some k.value else k.channel g }

/-- Python `range(a, b+1)` over integers. -/
def int_range (a b : ℤ) : List ℤ :=
  (List.range (b + 1 - a).toNat).map (fun (i : ℕ) => a + (i : ℤ))

/-- One step of `clear_viseme_keys`' inner loop: `key.value = 0.0` then
`key.keyframe_insert(data_path="value", frame=f)`. -/
def clear_step (k : ShapeKey) (f : ℤ) : ShapeKey :=
  keyframe_insert { k with value := 0 } f

/-- The whole inner loop of `clear_viseme_keys` on one key. -/
def clear_key (k : ShapeKey) (a b : ℤ) : ShapeKey :=
  (int_range a b).foldl clear_step k

/-- `clear_viseme_keys(obj, frame_start, frame_end)` (lines 31-38): if the
object has no shape keys, do nothing; otherwise zero out every key whose
name starts with `"viseme_"` over every frame of the inclusive range. -/
def clear_viseme_keys (obj : Option (List ShapeKey)) (a b : ℤ) :
    Option (List ShapeKey) :=
  match obj with
  | none => none
  | some ks =>
      some (ks.map (fun k => if py_startswith k.name "viseme_" then clear_key k a b else k))

/-- Update the first key block with the given name (Blender key-block
collections index by name; names are unique in Blender). -/
def updateFirst : List ShapeKey → String → (ShapeKey → ShapeKey) → List ShapeKey
  | [], _, _ => []
  | k :: rest, nm, f =>
      if k.name = nm then f k :: rest else k :: updateFirst rest nm f

/-- `insert_viseme(obj, viseme, frame, strength)` (lines 40-46): if the
object has shape keys and one of them is named `viseme`, set its value to
`strength` and keyframe it at `frame`; otherwise do nothing. -/
def insert_viseme (obj : Option (List ShapeKey)) (viseme : String)
    (frame : ℤ) (strength : ℚ) : Option (List ShapeKey) :=
  match obj with
  | none => none
  | some ks =>
      if ks.any (fun k => k.name == viseme) then
        some (updateFirst ks viseme
          (fun k => keyframe_insert { k with value := strength } frame))
      else some ks

/-- Applying a list of keyframe requests in order via `insert_viseme`. -/
def apply_plan (obj : Option (List ShapeKey)) (es : List KeyframeEvent) :
    Option (List ShapeKey) :=
  es.foldl (fun o e => insert_viseme o e.viseme e.frame e.strength) obj

/-- `frame_start` of Mode A (line 109): `int(word_segments[0]["start"]*fps)`
when the document is nonempty, otherwise 1. -/
def modeA_frame_start (ws : List WordSegment) (fps : ℚ) : ℤ :=
  match ws with
  | [] => 1
  | w :: _ => frameA w.start fps

/-- `frame_end` of Mode A (line 110): `int(word_segments[-1]["end"]*fps)`
when the document is nonempty, otherwise 1. -/
def modeA_frame_end (ws : List WordSegment) (fps : ℚ) : ℤ :=
  match ws.getLast? with
  | none => 1
  | some w => frameA w.«end» fps

/-- Mode A's full write effect (lines 109-120): clear the span, then
apply the keyframe requests of the word loop in order. -/
def modeA_execute (obj : Option (List ShapeKey)) (ws : List WordSegment)
    (fps : ℚ) : Option (List ShapeKey) :=
  apply_plan
    (clear_viseme_keys obj (modeA_frame_start ws fps) (modeA_frame_end ws fps))
    (modeA_plan ws fps)

/-- The effect of one keyframe request on one key block, as performed by
`insert_viseme` on the key whose name matches. -/
def key_step (k : ShapeKey) (e : KeyframeEvent) : ShapeKey :=
  if k.name = e.viseme then keyframe_insert { k with value := e.strength } e.frame else k

/-- The accumulated effect of a request list on one key block. -/
def key_fold (k : ShapeKey) (es : List KeyframeEvent) : ShapeKey :=
  es.foldl key_step k

/-- The strength of the last request of `es` aimed at key `nm` and frame
`g`, if any. -/
def lastWrite : List KeyframeEvent → String → ℤ → Option ℚ
  | [], _, _ => none
  | e :: es, nm, g =>
      match lastWrite es nm g with
      | some s => some s
      | none => if e.viseme = nm ∧ e.frame = g then some e.strength else none

/-- The strength of the last request of `es` aimed at key `nm`, if any. -/
def lastVal : List KeyframeEvent → String → Option ℚ
  | [], _ => none
  | e :: es, nm =>
      match lastVal es nm with
      | some s => some s
      | none => if e.viseme = nm then some e.strength else none

/-- Option fallback: the first operand if present, else the second. -/
def oget (a b : Option ℚ) : Option ℚ :=
  match a with
  | some s => some s
  | none => b

/-- The clearing step of Mode A on one key block: keys whose name starts
with `"viseme_"` are zeroed over the span, others are untouched. -/
def clear_if_viseme (a b : ℤ) (k : ShapeKey) : ShapeKey :=
  if py_startswith k.name "viseme_" then clear_key k a b else k

/-- Clear one key block over `[a, b]` when it is a viseme key, then apply
the keyframe request list to it. -/
def key_update (a b : ℤ) (es : List KeyframeEvent) (k : ShapeKey) : ShapeKey :=
  key_fold (clear_if_viseme a b k) es

/-- The per-key description of Mode A's whole effect: clear the span when
the key is a viseme key, then apply the request list. -/
def modeA_key_update (ws : List WordSegment) (fps : ℚ) (k : ShapeKey) : ShapeKey :=
  key_update (modeA_frame_start ws fps) (modeA_frame_end ws fps) (modeA_plan ws fps) k

/-- Key-block names of an object are distinct (a Blender invariant). -/
def namesNodup (ks : List ShapeKey) : Prop :=
  (ks.map ShapeKey.name).Nodup

/-! ### Arithmetic facts about the two quantization functions -/

theorem pyRound_le_add_half (q : ℚ) : ((pyRound q : ℤ) : ℚ) ≤ q + 1/2 := by
  have h0 : ((⌊q⌋ : ℤ) : ℚ) ≤ q := Int.floor_le q
  have h1 : q < (⌊q⌋ : ℤ) + 1 := Int.lt_floor_add_one q
  unfold pyRound
  split_ifs with hc1 hc2 hc3 <;> push_cast <;> linarith

theorem sub_half_le_pyRound (q : ℚ) : q - 1/2 ≤ ((pyRound q : ℤ) : ℚ) := by
  have h0 : ((⌊q⌋ : ℤ) : ℚ) ≤ q := Int.floor_le q
  have h1 : q < (⌊q⌋ : ℤ) + 1 := Int.lt_floor_add_one q
  unfold pyRound
  split_ifs with hc1 hc2 hc3 <;> push_cast <;> linarith

theorem pyRound_mono {q r : ℚ} (h : q ≤ r) : pyRound q ≤ pyRound r := by
  rcases eq_or_lt_of_le h with rfl | hlt
  · exact le_refl _
  · have h1 := pyRound_le_add_half q
    have h2 := sub_half_le_pyRound r
    have h3 : ((pyRound q : ℤ) : ℚ) < (pyRound r : ℤ) + 1 := by linarith
    have h4 : (pyRound q : ℤ) < pyRound r + 1 := by exact_mod_cast h3
    omega

theorem pyRound_intCast (n : ℤ) : pyRound (n : ℚ) = n := by
  unfold pyRound
  rw [Int.floor_intCast]
  norm_num

/-- Off exact half-integer ties, Python `round` agrees with the spec's
round-half-up rule (Mathlib `round`). -/
theorem pyRound_eq_round {q : ℚ} (h : Int.fract q ≠ 1/2) : pyRound q = round q := by
  have hf : Int.fract q = q - ⌊q⌋ := rfl
  have h0 : ((⌊q⌋ : ℤ) : ℚ) ≤ q := Int.floor_le q
  have h1 : q < (⌊q⌋ : ℤ) + 1 := Int.lt_floor_add_one q
  rw [round_eq]
  unfold pyRound
  split_ifs with hc1 hc2
  · symm
    rw [Int.floor_eq_iff]
    constructor
    · linarith
    · linarith
  · symm
    rw [Int.floor_eq_iff]
    constructor
    · push_cast; linarith
    · push_cast; linarith
  · exact absurd (by rw [hf]; linarith) h
  · exact absurd (by rw [hf]; linarith) h

/-! ### Claim C4 — the spec's Mode A worked example -/

/-- Claim C4 evaluated on the code: for
`word_segments=[{word:"Hi", start:0.0, end:0.5, phonemes:["HH","AY1"]}]`
at fps 24, Mode A emits NO events at all: `"HH"` is not in the table, and
`"AY1"` is looked up without stress stripping, misses the table, and is
skipped as well — the claimed `viseme_AA` activation at frame 0 and
deactivation at frame 12 never happen. -/
theorem c4_modeA_example_yields_no_events :
    modeA_plan [⟨"Hi", 0, 1/2, ["HH", "AY1"]⟩] 24 = [] := by decide

/-! ### Claim C8 — empty documents -/

/-- Claim C8: an empty `word_segments` list makes both modes a no-op that
succeeds: Mode A's raw-document run returns `ok` with no keyframe
requests, its plan is empty, and Mode B requests no word-level split. -/
theorem c8_empty_document_is_noop (fps : ℚ) :
    modeA_plan [] fps = [] ∧
    modeA_run [] fps = Except.ok [] ∧
    modeB_word_split_frames [] fps = [] :=
  ⟨rfl, rfl, rfl⟩

/-! ### Claim C5 — Mode A event emission -/

theorem phoneme_events_eq_ref (phs : List String) (st fin : ℤ) :
    phoneme_events phs st fin =
      (phs.filterMap arpabet_get).flatMap
        (fun v => [(⟨v, st, 1⟩ : KeyframeEvent), ⟨v, fin, 0⟩]) := by
  induction phs with
  | nil => rfl
  | cons ph rest ih =>
      cases h : arpabet_get ph with
      | none => simp [phoneme_events, h, List.filterMap_cons, ih]
      | some v => simp [phoneme_events, h, List.filterMap_cons, ih]

/-- Claim C5: Mode A's emitted event list is exactly the spec's plan —
per word, per table-mapped phoneme, exactly the activation event
(strength 1.0) at the word's start frame followed by the deactivation
event (strength 0.0) at the word's end frame, and nothing for phonemes
the table does not map. -/
theorem c5_modeA_events_exact (ws : List WordSegment) (fps : ℚ) :
    modeA_plan ws fps = modeA_plan_ref ws fps := by
  induction ws with
  | nil => rfl
  | cons w rest ih =>
      simp [modeA_plan, modeA_plan_ref, List.flatMap_cons, phoneme_events_eq_ref, ih]

/-! ### Claim C3 — stress-digit handling of the classifiers -/

/-- Counterexample to claim C3: the Mode A classification path
(`ARPABET_TO_VISEME.get(ph)`) does not strip stress digits at all, so
`"AY1"` classifies to `none` while `"AY"` classifies to `viseme_AA`;
and the export path strips `'0'`/`'1'` but not `'2'`, so `"AA2"`
classifies to `none` while `"AA"` classifies to `viseme_AA`. -/
theorem c3_cex_stress_digits_not_stripped :
    arpabet_get "AY1" = none ∧
    arpabet_get "AY" = some "viseme_AA" ∧
    classify_export "AA2" = none ∧
    classify_export "AA" = some "viseme_AA" := by decide

/-- Claim C3 as amended: only the shape-key export path normalizes, and
it deletes every `'0'` and `'1'` character (so a trailing `'0'`/`'1'`
behaves as stripped) but leaves `'2'` in place (such symbols classify to
`none`); the Mode A import path looks up the raw symbol, so every table
symbol with any trailing stress digit classifies to `none` there.
Verified over every entry of the static table. -/
theorem c3_amended_per_path_normalization :
    ARPABET_TO_VISEME.all (fun p =>
      (classify_export (p.1 ++ "0") == some p.2) &&
      (classify_export (p.1 ++ "1") == some p.2) &&
      (classify_export (p.1 ++ "2") == none) &&
      (arpabet_get (p.1 ++ "0") == none) &&
      (arpabet_get (p.1 ++ "1") == none) &&
      (arpabet_get (p.1 ++ "2") == none)) = true := by decide

/-! ### Claim C1 — quantization rules of the two modes -/

theorem mem_phoneme_events_frame {phs : List String} {st fin : ℤ} {e : KeyframeEvent}
    (he : e ∈ phoneme_events phs st fin) : e.frame = st ∨ e.frame = fin := by
  induction phs with
  | nil => simp [phoneme_events] at he
  | cons ph rest ih =>
      cases h : arpabet_get ph with
      | none =>
          rw [phoneme_events, h] at he
          exact ih he
      | some v =>
          rw [phoneme_events, h, List.mem_cons, List.mem_cons] at he
          rcases he with rfl | rfl | he
          · exact Or.inl rfl
          · exact Or.inr rfl
          · exact ih he

theorem modeA_plan_frames {ws : List WordSegment} {fps : ℚ} {e : KeyframeEvent}
    (he : e ∈ modeA_plan ws fps) :
    ∃ w, w ∈ ws ∧ (e.frame = frameA w.start fps ∨ e.frame = frameA w.«end» fps) := by
  induction ws with
  | nil => simp [modeA_plan] at he
  | cons w rest ih =>
      rw [modeA_plan] at he
      rcases List.mem_append.mp he with he | he
      · exact ⟨w, List.mem_cons_self w rest, mem_phoneme_events_frame he⟩
      · obtain ⟨w', hw', hfr⟩ := ih he
        exact ⟨w', List.mem_cons_of_mem w hw', hfr⟩

/-- Claim C1 as amended: each mode applies one fixed quantization rule at
every conversion site — every frame in Mode A's plan is `frameA`
(truncation `int(t*fps)`) of a document timestamp, and every word-level
split frame of Mode B is `frameB` (`int(round(t*fps))`, ties to even) of
a document timestamp — so within one mode a shared timestamp always
yields the same frame; but the two modes use different rules and can
disagree on the same timestamp. -/
theorem c1_per_mode_single_rule (ws : List WordSegment) (fps : ℚ)
    (e : KeyframeEvent) (fr : ℤ)
    (he : e ∈ modeA_plan ws fps) (hf : fr ∈ modeB_word_split_frames ws fps) :
    (∃ w, w ∈ ws ∧ (e.frame = frameA w.start fps ∨ e.frame = frameA w.«end» fps)) ∧
    (∃ w, w ∈ ws ∧ fr = frameB w.«end» fps) := by
  refine ⟨modeA_plan_frames he, ?_⟩
  rw [modeB_word_split_frames] at hf
  obtain ⟨w, hw, rfl⟩ := List.mem_map.mp hf
  exact ⟨w, (List.dropLast_sublist ws).subset hw, rfl⟩

/-- Counterexample to claim C1 as stated: the same timestamp `t = 0.9 s`
at `fps = 24` becomes frame 21 in Mode A (`int(0.9*24) = 21`, truncation)
but frame 22 in Mode B (`int(round(0.9*24)) = 22`), so the quantization
is not applied identically in both output modes. -/
theorem c1_cex_modes_disagree :
    frameA (9/10) 24 = 21 ∧ frameB (9/10) 24 = 22 ∧
    frameA (9/10) 24 ≠ frameB (9/10) 24 := by
  refine ⟨?_, ?_, ?_⟩
  · norm_num [frameA, pyInt]
  · norm_num [frameB, pyRound]
  · norm_num [frameA, frameB, pyInt, pyRound]

theorem c1_witness :
    ((⟨"viseme_AA", frameA 0 1, 1⟩ : KeyframeEvent) ∈
        modeA_plan [⟨"a", 0, 1, ["AA"]⟩, ⟨"b", 1, 2, ["D"]⟩] 1) ∧
    (frameB 1 1 ∈ modeB_word_split_frames [⟨"a", 0, 1, ["AA"]⟩, ⟨"b", 1, 2, ["D"]⟩] 1) ∧
    ((∃ w, w ∈ [(⟨"a", 0, 1, ["AA"]⟩ : WordSegment), ⟨"b", 1, 2, ["D"]⟩] ∧
        ((⟨"viseme_AA", frameA 0 1, 1⟩ : KeyframeEvent).frame = frameA w.start 1 ∨
         (⟨"viseme_AA", frameA 0 1, 1⟩ : KeyframeEvent).frame = frameA w.«end» 1)) ∧
     (∃ w, w ∈ [(⟨"a", 0, 1, ["AA"]⟩ : WordSegment), ⟨"b", 1, 2, ["D"]⟩] ∧
        frameB 1 1 = frameB w.«end» 1)) := by
  have h1 : (⟨"viseme_AA", frameA 0 1, 1⟩ : KeyframeEvent) ∈
      modeA_plan [⟨"a", 0, 1, ["AA"]⟩, ⟨"b", 1, 2, ["D"]⟩] 1 := by
    simp [modeA_plan, phoneme_events, arpabet_get, ARPABET_TO_VISEME]
  have h2 : frameB 1 1 ∈
      modeB_word_split_frames [⟨"a", 0, 1, ["AA"]⟩, ⟨"b", 1, 2, ["D"]⟩] 1 := by
    simp [modeB_word_split_frames, List.dropLast]
  exact ⟨h1, h2, c1_per_mode_single_rule _ _ _ _ h1 h2⟩

/-! ### Claim C2 — (absence of) parse validation -/

theorem except_bind_ok {α β : Type} (a : α) (f : α → Except String β) :
    (Except.ok a >>= f : Except String β) = f a := rfl

theorem segs_events_ok (segs : List RawSegment) (fps : ℚ)
    (h : ∀ s ∈ segs, s.start.isSome ∧ s.«end».isSome) :
    ∃ evs, segs_events segs fps = Except.ok evs := by
  induction segs with
  | nil => exact ⟨[], rfl⟩
  | cons s rest ih =>
      obtain ⟨st, hst⟩ := Option.isSome_iff_exists.mp (h s (List.mem_cons_self s rest)).1
      obtain ⟨en, hen⟩ := Option.isSome_iff_exists.mp (h s (List.mem_cons_self s rest)).2
      obtain ⟨evs, hevs⟩ := ih (fun s' hs' => h s' (List.mem_cons_of_mem s hs'))
      refine ⟨phoneme_events (s.phonemes.getD []) (frameA st fps) (frameA en fps) ++ evs, ?_⟩
      simp [segs_events, seg_events, hst, hen, getItem, hevs, except_bind_ok]

/-- Claim C2 as amended: the code performs no structural validation at
all — for any raw document in which every segment merely has its `start`
and `end` keys present, Mode A's run succeeds and produces a plan,
regardless of segment ordering or of `start >= end`; no `ParseError`
exists anywhere in the program. -/
theorem c2_amended_no_validation (segs : List RawSegment) (fps : ℚ)
    (h : ∀ s ∈ segs, s.start.isSome ∧ s.«end».isSome) :
    ∃ evs, modeA_run segs fps = Except.ok evs := by
  cases segs with
  | nil => exact ⟨[], rfl⟩
  | cons s0 rest =>
      obtain ⟨st0, hst0⟩ :=
        Option.isSome_iff_exists.mp (h s0 (List.mem_cons_self s0 rest)).1
      have hlastmem := List.getLast_mem (List.cons_ne_nil s0 rest)
      obtain ⟨en, hen⟩ := Option.isSome_iff_exists.mp (h _ hlastmem).2
      obtain ⟨evs, hevs⟩ := segs_events_ok (s0 :: rest) fps h
      refine ⟨evs, ?_⟩
      simp [modeA_run, hst0, hen, getItem, hevs, except_bind_ok]

theorem c2_witness :
    (∀ s ∈ ([⟨some "w", some 1, some 0, some []⟩] : List RawSegment),
        s.start.isSome ∧ s.«end».isSome) ∧
    (∃ evs, modeA_run [⟨some "w", some 1, some 0, some []⟩] 1 = Except.ok evs) :=
  ⟨by decide, c2_amended_no_validation _ _ (by decide)⟩

/-- Counterexample to claim C2 as stated: a document whose only segment
has `start = 1.0 > end = 0.5` is not rejected with
`ParseError(OutOfOrder)` — Mode A happily produces a plan for it (an
activation at frame 24 and a deactivation at the earlier frame 12). -/
theorem c2_cex_out_of_order_accepted :
    modeA_run [⟨some "hi", some 1, some (1/2), some ["AA"]⟩] 24 =
      Except.ok [⟨"viseme_AA", 24, 1⟩, ⟨"viseme_AA", 12, 0⟩] := by
  simp only [modeA_run, segs_events, seg_events, getItem, List.getLast,
    except_bind_ok, phoneme_events, arpabet_get, ARPABET_TO_VISEME,
    Option.getD_some]
  norm_num [frameA, pyInt, List.lookup]

/-! ### Claims C6 and C7 — Mode B's split frames and partition -/

theorem split_point_mono (ps pe : ℤ) (n : ℕ) (h : ps ≤ pe) {i j : ℕ} (hij : i ≤ j) :
    ps + pyRound ((i : ℚ) * ((pe - ps : ℤ) : ℚ) / (n : ℚ)) ≤
      ps + pyRound ((j : ℚ) * ((pe - ps : ℤ) : ℚ) / (n : ℚ)) := by
  have hL : (0 : ℚ) ≤ ((pe - ps : ℤ) : ℚ) := by
    have h' : (0 : ℤ) ≤ pe - ps := by omega
    exact_mod_cast h'
  have hij' : (i : ℚ) ≤ (j : ℚ) := by exact_mod_cast hij
  have hmul : (i : ℚ) * ((pe - ps : ℤ) : ℚ) ≤ (j : ℚ) * ((pe - ps : ℤ) : ℚ) :=
    mul_le_mul_of_nonneg_right hij' hL
  rcases Nat.eq_zero_or_pos n with hn | hn
  · subst hn; simp
  · have hn' : (0 : ℚ) < (n : ℚ) := by exact_mod_cast hn
    exact add_le_add_left (pyRound_mono ((div_le_div_iff_of_pos_right hn').mpr hmul)) ps

theorem split_point_ge (ps pe : ℤ) (n : ℕ) (h : ps ≤ pe) (i : ℕ) :
    ps ≤ ps + pyRound ((i : ℚ) * ((pe - ps : ℤ) : ℚ) / (n : ℚ)) := by
  have h0 := split_point_mono ps pe n h (Nat.zero_le i)
  have hz : ((0 : ℕ) : ℚ) * ((pe - ps : ℤ) : ℚ) / (n : ℚ) = ((0 : ℤ) : ℚ) := by
    push_cast; ring
  rw [hz, pyRound_intCast] at h0
  simpa using h0

theorem split_point_le (ps pe : ℤ) (n : ℕ) (h : ps ≤ pe) (i : ℕ) (hi : i ≤ n) :
    ps + pyRound ((i : ℚ) * ((pe - ps : ℤ) : ℚ) / (n : ℚ)) ≤ pe := by
  have hL : (0 : ℚ) ≤ ((pe - ps : ℤ) : ℚ) := by
    have h' : (0 : ℤ) ≤ pe - ps := by omega
    exact_mod_cast h'
  rcases Nat.eq_zero_or_pos n with hn | hn
  · subst hn
    have hi0 : i = 0 := Nat.le_zero.mp hi
    subst hi0
    have hz : ((0 : ℕ) : ℚ) * ((pe - ps : ℤ) : ℚ) / ((0 : ℕ) : ℚ) = ((0 : ℤ) : ℚ) := by
      push_cast; ring
    rw [hz, pyRound_intCast]
    omega
  · have hn' : (0 : ℚ) < (n : ℚ) := by exact_mod_cast hn
    have hx : (i : ℚ) * ((pe - ps : ℤ) : ℚ) / (n : ℚ) ≤ ((pe - ps : ℤ) : ℚ) := by
      rw [div_le_iff₀ hn']
      have hi' : (i : ℚ) ≤ (n : ℚ) := by exact_mod_cast hi
      nlinarith
    have hb := pyRound_le_add_half ((i : ℚ) * ((pe - ps : ℤ) : ℚ) / (n : ℚ))
    have hlt : ((pyRound ((i : ℚ) * ((pe - ps : ℤ) : ℚ) / (n : ℚ)) : ℤ) : ℚ) <
        ((pe - ps : ℤ) : ℚ) + 1 := by linarith
    have hlt' : pyRound ((i : ℚ) * ((pe - ps : ℤ) : ℚ) / (n : ℚ)) < pe - ps + 1 := by
      exact_mod_cast hlt
    omega

theorem boundaries_pairwise (ps pe : ℤ) (n : ℕ) (h : ps ≤ pe) :
    List.Pairwise (· ≤ ·) (modeB_boundaries ps pe n) := by
  rw [modeB_boundaries, List.pairwise_cons]
  constructor
  · intro b hb
    rcases List.mem_append.mp hb with hb | hb
    · rw [phoneme_split_frames] at hb
      obtain ⟨i, _, rfl⟩ := List.mem_map.mp hb
      exact split_point_ge ps pe n h i
    · have hb' : b = pe := by simpa using hb
      subst hb'
      exact h
  · rw [List.pairwise_append]
    refine ⟨?_, by simp, ?_⟩
    · rw [phoneme_split_frames]
      exact (List.pairwise_lt_range' 1 (n - 1)).map _
        (fun a b hab => split_point_mono ps pe n h (le_of_lt hab))
    · intro x hx y hy
      have hy' : y = pe := by simpa using hy
      rw [phoneme_split_frames] at hx
      obtain ⟨i, hi, rfl⟩ := List.mem_map.mp hx
      have hi' : i ≤ n := by
        obtain ⟨h1, h2⟩ := List.mem_range'_1.mp hi
        omega
      rw [hy']
      exact split_point_le ps pe n h i hi'

theorem build_regions_le :
    ∀ (pairs : List (ℤ × String)) (prev pe : ℤ) (lp : String),
      List.Chain' (· ≤ ·) (prev :: (pairs.map Prod.fst ++ [pe])) →
      ∀ r ∈ build_regions prev pairs pe lp, r.1 ≤ r.2.1 := by
  intro pairs
  induction pairs with
  | nil =>
      intro prev pe lp hch r hr
      have hr' : r = (prev, pe, "ph_" ++ lp) := by simpa [build_regions] using hr
      subst hr'
      simpa using (List.chain'_pair.mp (by simpa using hch))
  | cons p rest ih =>
      intro prev pe lp hch r hr
      obtain ⟨f, ph⟩ := p
      rw [build_regions] at hr
      have hch' : (· ≤ ·) prev f ∧
          List.Chain' (· ≤ ·) (f :: (rest.map Prod.fst ++ [pe])) := by
        rw [List.map_cons, List.cons_append] at hch
        exact List.chain'_cons.mp hch
      rcases List.mem_cons.mp hr with rfl | hr
      · exact hch'.1
      · exact ih f pe lp hch'.2 r hr

theorem map_frameB_chain (fps : ℚ) (hfps : 0 < fps) :
    ∀ ws : List WordSegment, (∀ w ∈ ws, w.start ≤ w.«end») →
      List.Chain' (fun a b : WordSegment => a.«end» ≤ b.start) ws →
      List.Chain' (· ≤ ·) (ws.map (fun w => frameB w.«end» fps)) := by
  intro ws
  induction ws with
  | nil => intro _ _; simp
  | cons w rest ih =>
      intro hse hch
      cases rest with
      | nil => simp
      | cons w2 rest2 =>
          rw [List.map_cons, List.map_cons, List.chain'_cons]
          constructor
          · have h1 : w.«end» ≤ w2.start := (List.chain'_cons.mp hch).1
            have h2 : w2.start ≤ w2.«end» := hse w2 (by simp)
            exact pyRound_mono
              (mul_le_mul_of_nonneg_right (le_trans h1 h2) (le_of_lt hfps))
          · have hrest := ih (fun x hx => hse x (List.mem_cons_of_mem w hx))
              (List.chain'_cons.mp hch).2
            simpa using hrest

/-- Claim C6 as amended: Mode B's word-level split frames are
monotonically non-decreasing for a chronological document, and inside one
word region the computed phoneme boundaries (region start, split frames,
region end) are monotonically non-decreasing, so every labeled region has
non-negative length — but coinciding split frames are NOT suppressed or
merged, so zero-length regions can appear (see the counterexample). -/
theorem c6_amended_monotone_unmerged (ws : List WordSegment) (fps : ℚ)
    (ps pe : ℤ) (w : String) (phs : List String)
    (hfps : 0 < fps) (hchrono : chronological ws) (hpe : ps ≤ pe) :
    List.Chain' (· ≤ ·) (modeB_word_split_frames ws fps) ∧
    List.Chain' (· ≤ ·) (modeB_boundaries ps pe phs.length) ∧
    (∀ r ∈ modeB_phoneme_regions ps pe w phs, r.1 ≤ r.2.1) := by
  refine ⟨?_, (boundaries_pairwise ps pe phs.length hpe).chain', ?_⟩
  · rw [modeB_word_split_frames]
    have hfull := map_frameB_chain fps hfps ws hchrono.1 hchrono.2
    rw [List.map_dropLast, List.dropLast_eq_take]
    exact hfull.take _
  · rw [modeB_phoneme_regions]
    split_ifs with hlen
    · intro r hr
      have hr' : r = (ps, pe, "word_" ++ w ++ "_ph_" ++ phs.headD "") := by
        simpa using hr
      subst hr'
      exact hpe
    · intro r hr
      refine build_regions_le _ ps pe _ ?_ r hr
      have hlenf : (phoneme_split_frames ps pe phs.length).length ≤
          phs.dropLast.length := by
        simp [phoneme_split_frames]
      rw [List.map_fst_zip _ _ hlenf]
      exact (boundaries_pairwise ps pe phs.length hpe).chain'

theorem c6_witness :
    (0 : ℚ) < 1 ∧ chronological [⟨"a", 0, 1, ["AA", "D"]⟩] ∧ (0 : ℤ) ≤ 1 ∧
    (List.Chain' (· ≤ ·) (modeB_word_split_frames [⟨"a", 0, 1, ["AA", "D"]⟩] 1) ∧
     List.Chain' (· ≤ ·) (modeB_boundaries 0 1 (["AA", "D"] : List String).length) ∧
     (∀ r ∈ modeB_phoneme_regions 0 1 "a" ["AA", "D"], r.1 ≤ r.2.1)) :=
  ⟨by norm_num, ⟨by simp, by simp⟩, by norm_num,
    c6_amended_monotone_unmerged [⟨"a", 0, 1, ["AA", "D"]⟩] 1 0 1 "a" ["AA", "D"]
      (by norm_num) ⟨by simp, by simp⟩ (by norm_num)⟩

/-- Counterexample to claim C6 as stated: a word region of one frame with
four phonemes yields the split frames `[0, 0, 1]` — two consecutive
computed split frames coincide — and the code performs every split
anyway, leaving the zero-length labeled regions `(0,0)` and `(1,1)` in
the final partition instead of suppressing or merging them. -/
theorem c6_cex_zero_length_regions_kept :
    phoneme_split_frames 0 1 4 = [0, 0, 1] ∧
    modeB_phoneme_regions 0 1 "go" ["P", "AA", "S", "D"] =
      [(0, 0, "ph_P"), (0, 0, "ph_AA"), (0, 1, "ph_S"), (1, 1, "ph_D")] := by
  have hf : phoneme_split_frames 0 1 4 = [0, 0, 1] := by
    rw [phoneme_split_frames]
    norm_num [List.range', pyRound]
    all_goals norm_num [Int.fract]
  refine ⟨hf, ?_⟩
  rw [modeB_phoneme_regions,
    show (["P", "AA", "S", "D"] : List String).length = 4 from rfl,
    if_neg (by norm_num), hf]
  decide

/-- Claim C7 as amended: with fewer than two phonemes the word region is
renamed whole and no split happens; with `n ≥ 2` phonemes the partition
has exactly `n` regions; the split points follow the stated formula
except that Python's `round` resolves exact half-integer ties to the
even neighbor rather than rounding up (off ties the two agree); and the
spec's own example splits region `[0,12]` at frame 6 into `[0,6)`
labeled `ph_HH` and `[6,12)` labeled `ph_AY1`. -/
theorem c7_amended_even_split (ps pe : ℤ) (w : String) (phs : List String) (n : ℕ) :
    (phs.length < 2 →
      modeB_phoneme_regions ps pe w phs =
        [(ps, pe, "word_" ++ w ++ "_ph_" ++ phs.headD "")]) ∧
    (2 ≤ phs.length → (modeB_phoneme_regions ps pe w phs).length = phs.length) ∧
    ((∀ i ∈ List.range' 1 (n - 1),
        Int.fract ((i : ℚ) * ((pe - ps : ℤ) : ℚ) / (n : ℚ)) ≠ 1/2) →
      phoneme_split_frames ps pe n = phoneme_split_frames_ref ps pe n) ∧
    modeB_phoneme_regions 0 12 "Hi" ["HH", "AY1"] =
      [(0, 6, "ph_HH"), (6, 12, "ph_AY1")] := by
  refine ⟨?_, ?_, ?_, ?_⟩
  · intro hlen
    rw [modeB_phoneme_regions, if_pos hlen]
  · intro hlen
    rw [modeB_phoneme_regions, if_neg (by omega)]
    have hlength : ∀ (pairs : List (ℤ × String)) (prev pe' : ℤ) (lp : String),
        (build_regions prev pairs pe' lp).length = pairs.length + 1 := by
      intro pairs
      induction pairs with
      | nil => intro prev pe' lp; rfl
      | cons p rest ih =>
          intro prev pe' lp
          obtain ⟨f, ph⟩ := p
          simp [build_regions, ih]
    rw [hlength, List.length_zip]
    simp only [phoneme_split_frames, List.length_map, List.length_range',
      List.length_dropLast]
    omega
  · intro hties
    rw [phoneme_split_frames, phoneme_split_frames_ref]
    apply List.map_congr_left
    intro i hi
    rw [pyRound_eq_round (hties i hi)]
  · have hf : phoneme_split_frames 0 12 2 = [6] := by
      rw [phoneme_split_frames]
      norm_num [List.range', pyRound]
    rw [modeB_phoneme_regions,
      show (["HH", "AY1"] : List String).length = 2 from rfl,
      if_neg (by norm_num), hf]
    decide

theorem c7_witness :
    modeB_phoneme_regions 0 12 "Hi" ["HH", "AY1"] =
      [(0, 6, "ph_HH"), (6, 12, "ph_AY1")] :=
  (c7_amended_even_split 0 12 "Hi" ["HH", "AY1"] 2).2.2.2

/-- Counterexample to claim C7 as stated: for a word span of 5 frames
with 2 phonemes, `i*span/n = 2.5` is an exact tie; the spec's rounding
rule (`round`, ties up) puts the split at `ws + 3`, but the code
(Python `round`, ties to even) puts it at `ws + 2`. -/
theorem c7_cex_tie_goes_to_even :
    phoneme_split_frames 0 5 2 = [2] ∧
    phoneme_split_frames_ref 0 5 2 = [3] ∧
    phoneme_split_frames 0 5 2 ≠ phoneme_split_frames_ref 0 5 2 := by
  have ha : phoneme_split_frames 0 5 2 = [2] := by
    rw [phoneme_split_frames]
    norm_num [List.range', pyRound]
    all_goals norm_num [Int.fract]
  have hb : phoneme_split_frames_ref 0 5 2 = [3] := by
    rw [phoneme_split_frames_ref]
    norm_num [List.range', round_eq]
  exact ⟨ha, hb, by rw [ha, hb]; decide⟩

/-! ### Claims C9 and C10 — Mode A's write effects on the shape keys -/

theorem key_fold_cons (k : ShapeKey) (e : KeyframeEvent) (es : List KeyframeEvent) :
    key_fold k (e :: es) = key_fold (key_step k e) es := rfl

@[simp] theorem key_step_name (k : ShapeKey) (e : KeyframeEvent) :
    (key_step k e).name = k.name := by
  rw [key_step]
  split_ifs <;> rfl

theorem key_fold_name (es : List KeyframeEvent) :
    ∀ k : ShapeKey, (key_fold k es).name = k.name := by
  induction es with
  | nil => intro k; rfl
  | cons e es ih =>
      intro k
      rw [key_fold_cons, ih, key_step_name]

theorem key_fold_channel (es : List KeyframeEvent) :
    ∀ (k : ShapeKey) (g : ℤ),
      (key_fold k es).channel g = oget (lastWrite es k.name g) (k.channel g) := by
  induction es with
  | nil => intro k g; rfl
  | cons e es ih =>
      intro k g
      rw [key_fold_cons, ih, key_step_name]
      cases hlw : lastWrite es k.name g with
      | some s =>
          have hrw : lastWrite (e :: es) k.name g = some s := by rw [lastWrite, hlw]
          rw [hrw]
          rfl
      | none =>
          have hrw : lastWrite (e :: es) k.name g =
              if e.viseme = k.name ∧ e.frame = g then some e.strength else none := by
            rw [lastWrite, hlw]
          rw [hrw, key_step]
          by_cases h1 : k.name = e.viseme
          · rw [if_pos h1]
            by_cases h2 : g = e.frame
            · rw [if_pos ⟨h1.symm, h2.symm⟩]
              simp [keyframe_insert, oget, h2]
            · rw [if_neg (fun hc => h2 hc.2.symm)]
              simp [keyframe_insert, oget, h2]
          · rw [if_neg h1, if_neg (fun hc => h1 hc.1.symm)]

theorem key_fold_value (es : List KeyframeEvent) :
    ∀ k : ShapeKey, (key_fold k es).value = (lastVal es k.name).getD k.value := by
  induction es with
  | nil => intro k; rfl
  | cons e es ih =>
      intro k
      rw [key_fold_cons, ih, key_step_name]
      cases hlv : lastVal es k.name with
      | some s =>
          have hrw : lastVal (e :: es) k.name = some s := by rw [lastVal, hlv]
          rw [hrw]
          rfl
      | none =>
          have hrw : lastVal (e :: es) k.name =
              if e.viseme = k.name then some e.strength else none := by
            rw [lastVal, hlv]
          rw [hrw, key_step]
          by_cases h1 : k.name = e.viseme
          · rw [if_pos h1, if_pos h1.symm]
            simp [keyframe_insert]
          · rw [if_neg h1, if_neg (fun hc => h1 hc.symm)]

theorem key_fold_idem (es : List KeyframeEvent) (k : ShapeKey) :
    key_fold (key_fold k es) es = key_fold k es := by
  apply ShapeKey.ext
  · rw [key_fold_name, key_fold_name]
  · rw [key_fold_value, key_fold_value, key_fold_name]
    cases h : lastVal es k.name <;> simp [h]
  · funext g
    rw [key_fold_channel, key_fold_channel, key_fold_name]
    cases h : lastWrite es k.name g <;> simp [h, oget]

@[simp] theorem clear_step_name (k : ShapeKey) (f : ℤ) :
    (clear_step k f).name = k.name := rfl

theorem clear_fold_name (l : List ℤ) :
    ∀ k : ShapeKey, (l.foldl clear_step k).name = k.name := by
  induction l with
  | nil => intro k; rfl
  | cons f l ih => intro k; rw [List.foldl_cons, ih, clear_step_name]

theorem clear_fold_channel (l : List ℤ) :
    ∀ (k : ShapeKey) (g : ℤ),
      (l.foldl clear_step k).channel g = if g ∈ l then some 0 else k.channel g := by
  induction l with
  | nil => intro k g; simp
  | cons f l ih =>
      intro k g
      rw [List.foldl_cons, ih]
      by_cases h1 : g ∈ l
      · simp [h1]
      · by_cases h2 : g = f
        · simp [h1, h2, clear_step, keyframe_insert]
        · simp [h1, h2, clear_step, keyframe_insert]

theorem clear_fold_value (l : List ℤ) :
    ∀ k : ShapeKey, (l.foldl clear_step k).value = if l = [] then k.value else 0 := by
  induction l with
  | nil => intro k; simp
  | cons f l ih =>
      intro k
      rw [List.foldl_cons, ih]
      by_cases h : l = [] <;> simp [h, clear_step, keyframe_insert]

theorem int_range_mem (a b g : ℤ) : g ∈ int_range a b ↔ a ≤ g ∧ g ≤ b := by
  simp only [int_range, List.mem_map, List.mem_range]
  constructor
  · rintro ⟨i, hi, rfl⟩
    omega
  · rintro ⟨h1, h2⟩
    exact ⟨(g - a).toNat, by omega, by omega⟩

theorem int_range_eq_nil (a b : ℤ) : int_range a b = [] ↔ b < a := by
  constructor
  · intro h
    by_contra hc
    have : a ∈ int_range a b := (int_range_mem a b a).mpr ⟨le_refl a, by omega⟩
    rw [h] at this
    simp at this
  · intro h
    rw [int_range]
    have : (b + 1 - a).toNat = 0 := by omega
    rw [this]
    rfl

theorem clear_key_name (k : ShapeKey) (a b : ℤ) : (clear_key k a b).name = k.name := by
  rw [clear_key, clear_fold_name]

theorem clear_key_channel (k : ShapeKey) (a b g : ℤ) :
    (clear_key k a b).channel g = if a ≤ g ∧ g ≤ b then some 0 else k.channel g := by
  rw [clear_key, clear_fold_channel]
  by_cases h : g ∈ int_range a b
  · rw [if_pos h, if_pos ((int_range_mem a b g).mp h)]
  · rw [if_neg h, if_neg (fun hc => h ((int_range_mem a b g).mpr hc))]

theorem clear_key_value (k : ShapeKey) (a b : ℤ) :
    (clear_key k a b).value = if a ≤ b then 0 else k.value := by
  rw [clear_key, clear_fold_value]
  by_cases h : a ≤ b
  · rw [if_neg (fun hc => by have := (int_range_eq_nil a b).mp hc; omega), if_pos h]
  · rw [if_pos ((int_range_eq_nil a b).mpr (by omega)), if_neg h]

theorem updateFirst_eq_map (ks : List ShapeKey) (nm : String)
    (f : ShapeKey → ShapeKey) (h : namesNodup ks) :
    updateFirst ks nm f = ks.map (fun k => if k.name = nm then f k else k) := by
  induction ks with
  | nil => rfl
  | cons k rest ih =>
      rw [namesNodup, List.map_cons, List.nodup_cons] at h
      rw [updateFirst, List.map_cons]
      by_cases hk : k.name = nm
      · rw [if_pos hk, if_pos hk]
        have hall : ∀ x ∈ rest, (if x.name = nm then f x else x) = x := by
          intro x hx
          rw [if_neg]
          intro hxn
          exact h.1 (by rw [hk, ← hxn]; exact List.mem_map_of_mem ShapeKey.name hx)
        rw [(List.map_congr_left hall).trans (List.map_id' rest)]
      · rw [if_neg hk, if_neg hk, ih h.2]

theorem insert_viseme_eq_map (ks : List ShapeKey) (e : KeyframeEvent)
    (h : namesNodup ks) :
    insert_viseme (some ks) e.viseme e.frame e.strength =
      some (ks.map (fun k => key_step k e)) := by
  rw [insert_viseme]
  by_cases hp : (ks.any (fun k => k.name == e.viseme)) = true
  · rw [if_pos hp, updateFirst_eq_map ks e.viseme _ h]
    congr 1
  · rw [if_neg hp]
    have hnone : ∀ k ∈ ks, ¬ k.name = e.viseme := by
      intro k hk hkn
      exact hp (List.any_eq_true.mpr ⟨k, hk, by simp [hkn]⟩)
    congr 1
    symm
    have hall : ∀ k ∈ ks, key_step k e = k := by
      intro k hk
      rw [key_step, if_neg (hnone k hk)]
    calc ks.map (fun k => key_step k e) = ks.map id := List.map_congr_left hall
      _ = ks := List.map_id ks

theorem names_map_key_step (ks : List ShapeKey) (e : KeyframeEvent) :
    (ks.map (fun k => key_step k e)).map ShapeKey.name = ks.map ShapeKey.name := by
  rw [List.map_map]
  apply List.map_congr_left
  intro k _
  exact key_step_name k e

theorem apply_plan_eq_map (es : List KeyframeEvent) :
    ∀ ks : List ShapeKey, namesNodup ks →
      apply_plan (some ks) es = some (ks.map (fun k => key_fold k es)) := by
  induction es with
  | nil =>
      intro ks _
      rw [apply_plan, List.foldl_nil]
      congr 1
      symm
      exact List.map_id' ks
  | cons e es ih =>
      intro ks h
      have hstep : apply_plan (some ks) (e :: es) =
          apply_plan (insert_viseme (some ks) e.viseme e.frame e.strength) es := rfl
      have hnd : namesNodup (ks.map (fun k => key_step k e)) := by
        rw [namesNodup, names_map_key_step]
        exact h
      rw [hstep, insert_viseme_eq_map ks e h, ih _ hnd, List.map_map]
      rfl

theorem apply_plan_none (es : List KeyframeEvent) :
    apply_plan none es = none := by
  induction es with
  | nil => rfl
  | cons e es ih =>
      have hstep : apply_plan (none : Option (List ShapeKey)) (e :: es) =
          apply_plan (insert_viseme none e.viseme e.frame e.strength) es := rfl
      rw [hstep, insert_viseme]
      exact ih

theorem clear_viseme_keys_some (ks : List ShapeKey) (a b : ℤ) :
    clear_viseme_keys (some ks) a b =
      some (ks.map (fun k => if py_startswith k.name "viseme_" then clear_key k a b else k)) := rfl

theorem names_clear (ks : List ShapeKey) (a b : ℤ) :
    ((ks.map (fun k => if py_startswith k.name "viseme_" then clear_key k a b else k)).map
      ShapeKey.name) = ks.map ShapeKey.name := by
  rw [List.map_map]
  apply List.map_congr_left
  intro k _
  show (if py_startswith k.name "viseme_" then clear_key k a b else k).name = k.name
  split_ifs
  · exact clear_key_name k a b
  · rfl

theorem modeA_execute_eq_map (ks : List ShapeKey) (ws : List WordSegment) (fps : ℚ)
    (h : namesNodup ks) :
    modeA_execute (some ks) ws fps = some (ks.map (modeA_key_update ws fps)) := by
  rw [modeA_execute, clear_viseme_keys_some, apply_plan_eq_map _ _
    (by rw [namesNodup, names_clear]; exact h), List.map_map]
  rfl

theorem clear_if_viseme_name (a b : ℤ) (k : ShapeKey) :
    (clear_if_viseme a b k).name = k.name := by
  rw [clear_if_viseme]
  split_ifs
  · exact clear_key_name k a b
  · rfl

theorem clear_if_viseme_value (a b : ℤ) (k : ShapeKey) :
    (clear_if_viseme a b k).value =
      if py_startswith k.name "viseme_" = true ∧ a ≤ b then 0 else k.value := by
  rw [clear_if_viseme]
  by_cases h1 : py_startswith k.name "viseme_" = true
  · rw [if_pos h1, clear_key_value]
    by_cases h2 : a ≤ b
    · rw [if_pos h2, if_pos ⟨h1, h2⟩]
    · rw [if_neg h2, if_neg (fun hc => h2 hc.2)]
  · rw [if_neg h1, if_neg (fun hc => h1 hc.1)]

theorem clear_if_viseme_channel (a b : ℤ) (k : ShapeKey) (g : ℤ) :
    (clear_if_viseme a b k).channel g =
      if py_startswith k.name "viseme_" = true ∧ (a ≤ g ∧ g ≤ b) then some 0
      else k.channel g := by
  rw [clear_if_viseme]
  by_cases h1 : py_startswith k.name "viseme_" = true
  · rw [if_pos h1, clear_key_channel]
    by_cases h2 : a ≤ g ∧ g ≤ b
    · rw [if_pos h2, if_pos ⟨h1, h2⟩]
    · rw [if_neg h2, if_neg (fun hc => h2 hc.2)]
  · rw [if_neg h1, if_neg (fun hc => h1 hc.1)]

theorem key_update_name (a b : ℤ) (es : List KeyframeEvent) (k : ShapeKey) :
    (key_update a b es k).name = k.name := by
  rw [key_update, key_fold_name, clear_if_viseme_name]

theorem key_update_value (a b : ℤ) (es : List KeyframeEvent) (k : ShapeKey) :
    (key_update a b es k).value =
      (lastVal es k.name).getD
        (if py_startswith k.name "viseme_" = true ∧ a ≤ b then 0 else k.value) := by
  rw [key_update, key_fold_value, clear_if_viseme_name, clear_if_viseme_value]

theorem key_update_channel (a b : ℤ) (es : List KeyframeEvent) (k : ShapeKey) (g : ℤ) :
    (key_update a b es k).channel g =
      oget (lastWrite es k.name g)
        (if py_startswith k.name "viseme_" = true ∧ (a ≤ g ∧ g ≤ b) then some 0
         else k.channel g) := by
  rw [key_update, key_fold_channel, clear_if_viseme_name, clear_if_viseme_channel]

theorem key_update_idem (a b : ℤ) (es : List KeyframeEvent) (k : ShapeKey) :
    key_update a b es (key_update a b es k) = key_update a b es k := by
  apply ShapeKey.ext
  · rw [key_update_name, key_update_name]
  · rw [key_update_value, key_update_value, key_update_name]
    cases hlv : lastVal es k.name with
    | some s => rfl
    | none =>
        simp only [Option.getD_none]
        by_cases hC : py_startswith k.name "viseme_" = true ∧ a ≤ b
        · rw [if_pos hC, if_pos hC]
        · rw [if_neg hC, if_neg hC]
  · funext g
    rw [key_update_channel, key_update_channel, key_update_name]
    cases hlw : lastWrite es k.name g with
    | some s => rfl
    | none =>
        simp only [oget]
        by_cases hC : py_startswith k.name "viseme_" = true ∧ (a ≤ g ∧ g ≤ b)
        · rw [if_pos hC, if_pos hC]
        · rw [if_neg hC, if_neg hC]

theorem modeA_key_update_name (ws : List WordSegment) (fps : ℚ) (k : ShapeKey) :
    (modeA_key_update ws fps k).name = k.name :=
  key_update_name _ _ _ k

theorem modeA_key_update_idem (ws : List WordSegment) (fps : ℚ) (k : ShapeKey) :
    modeA_key_update ws fps (modeA_key_update ws fps k) = modeA_key_update ws fps k :=
  key_update_idem _ _ _ k

/-- Claim C9: Mode A is idempotent on the shape-key state — running the
whole clear-then-write effect twice for the same document equals running
it once, and applying the keyframe request list twice to a
freshly-cleared object equals applying it once (key-block names are
unique on a Blender object). -/
theorem c9_modeA_idempotent (ks : List ShapeKey) (ws : List WordSegment)
    (fps : ℚ) (h : namesNodup ks) :
    modeA_execute (modeA_execute (some ks) ws fps) ws fps =
      modeA_execute (some ks) ws fps ∧
    apply_plan
        (apply_plan
          (clear_viseme_keys (some ks) (modeA_frame_start ws fps) (modeA_frame_end ws fps))
          (modeA_plan ws fps))
        (modeA_plan ws fps) =
      apply_plan
        (clear_viseme_keys (some ks) (modeA_frame_start ws fps) (modeA_frame_end ws fps))
        (modeA_plan ws fps) := by
  constructor
  · have hnd2 : namesNodup (ks.map (modeA_key_update ws fps)) := by
      rw [namesNodup, List.map_map]
      have : ks.map (ShapeKey.name ∘ modeA_key_update ws fps) = ks.map ShapeKey.name :=
        List.map_congr_left (fun k _ => modeA_key_update_name ws fps k)
      rw [this]
      exact h
    rw [modeA_execute_eq_map ks ws fps h, modeA_execute_eq_map _ ws fps hnd2,
      List.map_map]
    congr 1
    apply List.map_congr_left
    intro k _
    exact modeA_key_update_idem ws fps k
  · rw [clear_viseme_keys_some]
    have hnd1 : namesNodup
        (ks.map (fun k => if py_startswith k.name "viseme_" then
          clear_key k (modeA_frame_start ws fps) (modeA_frame_end ws fps) else k)) := by
      rw [namesNodup, names_clear]
      exact h
    have hnd2 : namesNodup
        ((ks.map (fun k => if py_startswith k.name "viseme_" then
          clear_key k (modeA_frame_start ws fps) (modeA_frame_end ws fps) else k)).map
            (fun k => key_fold k (modeA_plan ws fps))) := by
      rw [namesNodup, List.map_map]
      have heq : (ks.map (fun k => if py_startswith k.name "viseme_" then
            clear_key k (modeA_frame_start ws fps) (modeA_frame_end ws fps) else k)).map
              (ShapeKey.name ∘ fun k => key_fold k (modeA_plan ws fps)) =
          (ks.map (fun k => if py_startswith k.name "viseme_" then
            clear_key k (modeA_frame_start ws fps) (modeA_frame_end ws fps) else k)).map
              ShapeKey.name := by
        apply List.map_congr_left
        intro k _
        exact key_fold_name _ k
      rw [heq]
      exact hnd1
    rw [apply_plan_eq_map _ _ hnd1, apply_plan_eq_map _ _ hnd2, List.map_map]
    congr 1
    apply List.map_congr_left
    intro k _
    exact key_fold_idem _ k

theorem c9_witness :
    (List.map ShapeKey.name ([⟨"viseme_AA", 0, fun _ => none⟩] : List ShapeKey)).Nodup ∧
    (modeA_execute
        (modeA_execute (some [⟨"viseme_AA", 0, fun _ => none⟩]) [⟨"a", 0, 1, ["AA"]⟩] 1)
        [⟨"a", 0, 1, ["AA"]⟩] 1 =
      modeA_execute (some [⟨"viseme_AA", 0, fun _ => none⟩]) [⟨"a", 0, 1, ["AA"]⟩] 1 ∧
    apply_plan
        (apply_plan
          (clear_viseme_keys (some [⟨"viseme_AA", 0, fun _ => none⟩])
            (modeA_frame_start [⟨"a", 0, 1, ["AA"]⟩] 1)
            (modeA_frame_end [⟨"a", 0, 1, ["AA"]⟩] 1))
          (modeA_plan [⟨"a", 0, 1, ["AA"]⟩] 1))
        (modeA_plan [⟨"a", 0, 1, ["AA"]⟩] 1) =
      apply_plan
        (clear_viseme_keys (some [⟨"viseme_AA", 0, fun _ => none⟩])
          (modeA_frame_start [⟨"a", 0, 1, ["AA"]⟩] 1)
          (modeA_frame_end [⟨"a", 0, 1, ["AA"]⟩] 1))
        (modeA_plan [⟨"a", 0, 1, ["AA"]⟩] 1)) :=
  ⟨by decide, c9_modeA_idempotent [⟨"viseme_AA", 0, fun _ => none⟩]
    [⟨"a", 0, 1, ["AA"]⟩] 1 (by unfold namesNodup; decide)⟩

/-! ### Claim C10 — which keys and frames Mode A touches -/

theorem lookup_snd_mem :
    ∀ (l : List (String × String)) (key v : String),
      List.lookup key l = some v → v ∈ l.map Prod.snd := by
  intro l
  induction l with
  | nil => intro key v h; simp [List.lookup] at h
  | cons p rest ih =>
      intro key v h
      obtain ⟨pk, pv⟩ := p
      rw [List.lookup] at h
      by_cases hb : (key == pk) = true
      · rw [hb] at h
        have hv : pv = v := by simpa using h
        rw [List.map_cons, ← hv]
        exact List.mem_cons_self pv _
      · rw [Bool.eq_false_iff.mpr hb] at h
        exact List.mem_cons_of_mem _ (ih key v h)

theorem arpabet_values_viseme :
    ∀ v ∈ ARPABET_TO_VISEME.map Prod.snd, py_startswith v "viseme_" = true := by
  decide

theorem mem_phoneme_events_viseme {phs : List String} {st fin : ℤ} {e : KeyframeEvent}
    (he : e ∈ phoneme_events phs st fin) : ∃ ph, arpabet_get ph = some e.viseme := by
  induction phs with
  | nil => simp [phoneme_events] at he
  | cons ph rest ih =>
      cases h : arpabet_get ph with
      | none =>
          rw [phoneme_events, h] at he
          exact ih he
      | some v =>
          rw [phoneme_events, h, List.mem_cons, List.mem_cons] at he
          rcases he with rfl | rfl | he
          · exact ⟨ph, h⟩
          · exact ⟨ph, h⟩
          · exact ih he

theorem modeA_plan_viseme_names {ws : List WordSegment} {fps : ℚ} {e : KeyframeEvent}
    (he : e ∈ modeA_plan ws fps) : py_startswith e.viseme "viseme_" = true := by
  have hsrc : ∃ ph, arpabet_get ph = some e.viseme := by
    induction ws with
    | nil => simp [modeA_plan] at he
    | cons w rest ih =>
        rw [modeA_plan] at he
        rcases List.mem_append.mp he with he | he
        · exact mem_phoneme_events_viseme he
        · exact ih he
  obtain ⟨ph, hph⟩ := hsrc
  exact arpabet_values_viseme e.viseme (lookup_snd_mem ARPABET_TO_VISEME ph e.viseme hph)

theorem lastWrite_none_of_name (es : List KeyframeEvent) (nm : String) (g : ℤ)
    (h : ∀ e ∈ es, e.viseme ≠ nm) : lastWrite es nm g = none := by
  induction es with
  | nil => rfl
  | cons e es ih =>
      rw [lastWrite, ih (fun e' he' => h e' (List.mem_cons_of_mem e he'))]
      rw [if_neg (fun hc => h e (List.mem_cons_self e es) hc.1)]

theorem lastVal_none_of_name (es : List KeyframeEvent) (nm : String)
    (h : ∀ e ∈ es, e.viseme ≠ nm) : lastVal es nm = none := by
  induction es with
  | nil => rfl
  | cons e es ih =>
      rw [lastVal, ih (fun e' he' => h e' (List.mem_cons_of_mem e he'))]
      rw [if_neg (h e (List.mem_cons_self e es))]

theorem lastWrite_none_of_frame (es : List KeyframeEvent) (nm : String) (g : ℤ)
    (h : ∀ e ∈ es, e.frame ≠ g) : lastWrite es nm g = none := by
  induction es with
  | nil => rfl
  | cons e es ih =>
      rw [lastWrite, ih (fun e' he' => h e' (List.mem_cons_of_mem e he'))]
      rw [if_neg (fun hc => h e (List.mem_cons_self e es) hc.2)]

/-- Claim C10: Mode A touches only `viseme_`-prefixed keys and only the
cleared span plus the plan's own event frames.  On an object with no
shape keys the clear and insert steps (and hence the whole run) are
no-ops; on an object with shape keys the run is a per-key update in
which every key whose name does not start with `"viseme_"` is left
exactly as it was, and every frame outside the cleared span that is not
an event frame keeps its channel content on every key. -/
theorem c10_frame_effects (ws : List WordSegment) (fps : ℚ) (ks : List ShapeKey)
    (v : String) (fr a b g : ℤ) (s : ℚ) (h : namesNodup ks) :
    (modeA_execute none ws fps = none ∧ clear_viseme_keys none a b = none ∧
      insert_viseme none v fr s = none) ∧
    modeA_execute (some ks) ws fps = some (ks.map (modeA_key_update ws fps)) ∧
    (∀ k : ShapeKey, ¬ py_startswith k.name "viseme_" = true →
      modeA_key_update ws fps k = k) ∧
    (∀ k : ShapeKey,
      ¬ (modeA_frame_start ws fps ≤ g ∧ g ≤ modeA_frame_end ws fps) →
      (∀ e ∈ modeA_plan ws fps, e.frame ≠ g) →
      (modeA_key_update ws fps k).channel g = k.channel g) := by
  refine ⟨⟨?_, rfl, rfl⟩, modeA_execute_eq_map ks ws fps h, ?_, ?_⟩
  · rw [modeA_execute]
    exact apply_plan_none _
  · intro k hsw
    have hnm : ∀ e ∈ modeA_plan ws fps, e.viseme ≠ k.name := by
      intro e he hev
      exact hsw (hev ▸ modeA_plan_viseme_names he)
    apply ShapeKey.ext
    · exact modeA_key_update_name ws fps k
    · rw [modeA_key_update, key_update_value,
        lastVal_none_of_name _ _ (fun e he => hnm e he), Option.getD_none,
        if_neg (fun hc => hsw hc.1)]
    · funext g'
      rw [modeA_key_update, key_update_channel,
        lastWrite_none_of_name _ _ _ (fun e he => hnm e he)]
      simp only [oget]
      rw [if_neg (fun hc => hsw hc.1)]
  · intro k hrange hframes
    rw [modeA_key_update, key_update_channel, lastWrite_none_of_frame _ _ _ hframes]
    simp only [oget]
    rw [if_neg (fun hc => hrange hc.2)]

theorem c10_witness :
    (List.map ShapeKey.name ([⟨"viseme_AA", 0, fun _ => none⟩] : List ShapeKey)).Nodup ∧
    ((modeA_execute none [⟨"a", 0, 1, ["AA"]⟩] 1 = none ∧
      clear_viseme_keys none 0 1 = none ∧
      insert_viseme none "viseme_AA" 0 1 = none) ∧
    modeA_execute (some [⟨"viseme_AA", 0, fun _ => none⟩]) [⟨"a", 0, 1, ["AA"]⟩] 1 =
      some (([⟨"viseme_AA", 0, fun _ => none⟩] : List ShapeKey).map
        (modeA_key_update [⟨"a", 0, 1, ["AA"]⟩] 1)) ∧
    (∀ k : ShapeKey, ¬ py_startswith k.name "viseme_" = true →
      modeA_key_update [⟨"a", 0, 1, ["AA"]⟩] 1 k = k) ∧
    (∀ k : ShapeKey,
      ¬ (modeA_frame_start [⟨"a", 0, 1, ["AA"]⟩] 1 ≤ 99 ∧
          99 ≤ modeA_frame_end [⟨"a", 0, 1, ["AA"]⟩] 1) →
      (∀ e ∈ modeA_plan [⟨"a", 0, 1, ["AA"]⟩] 1, e.frame ≠ 99) →
      (modeA_key_update [⟨"a", 0, 1, ["AA"]⟩] 1 k).channel 99 = k.channel 99)) :=
  ⟨by decide, c10_frame_effects [⟨"a", 0, 1, ["AA"]⟩] 1
    [⟨"viseme_AA", 0, fun _ => none⟩] "viseme_AA" 0 0 1 99 1 (by unfold namesNodup; decide)⟩

end TTF
